import Mathlib

/-!
Verification of the `wlinflate` wordlist-expansion engine
(`src/wordlist.rs`, `src/main.rs`).

The program reads a base wordlist line by line and lazily expands each line
through four stages (swap substitution, prepend, append, extension) over a
growing FIFO buffer, exposing the result as a pull-based iterator.

Shallow embedding conventions:
* Rust `String` is Lean `String` (a structure holding a `List Char`); the
  string-scanning primitives (`contains`, `replace`, `split`, the line
  chunker of `read_until`) are embedded as structural recursions over the
  underlying character lists, matching the Rust semantics (leftmost match,
  non-overlapping, no trimming).
* The `BufReader<File>` is embedded as a list of pending read events:
  `some raw` is a successful `read_line` producing the raw line `raw`
  (terminator included), `none` is an I/O error (`Err(_)`); an exhausted
  list is end of input (`Ok(0)`). `Wordlist::new` builds an error-free
  event list from the file contents, which are passed explicitly since
  file I/O itself is not modelled.
* The mutation of `self` in `Wordlist::next` becomes explicit state
  passing: `next` returns the yielded `Option String`, the updated state,
  and the list of messages printed to the diagnostic stream (stderr)
  during the call.
-/

namespace Wlinflate

/-- The characters of the literal placeholder token `{SWAP}`. -/
def swapTok : List Char := ['{', 'S', 'W', 'A', 'P', '}']

/-- Embedding of Rust `base_word.contains("{SWAP}")`: scan left to right for
an occurrence of the token. -/
def containsSwapL : List Char → Bool
  | '{' :: 'S' :: 'W' :: 'A' :: 'P' :: '}' :: _ => true
  | _ :: rest => containsSwapL rest
  | [] => false

/-- Embedding of Rust `base_word.replace("{SWAP}", rep)`: replace every
leftmost, non-overlapping occurrence of the token, skipping over the
replaced text. -/
def replaceSwapL (rep : List Char) : List Char → List Char
  | '{' :: 'S' :: 'W' :: 'A' :: 'P' :: '}' :: rest => rep ++ replaceSwapL rep rest
  | c :: rest => c :: replaceSwapL rep rest
  | [] => []

/-- Embedding of Rust `s.split(",")` on the character list: cut at every
comma, keeping empty segments (adjacent, leading or trailing commas) and
performing no trimming.  Rust's `split` always yields at least one
(possibly empty) segment, so the result is never `[]`. -/
def splitComma : List Char → List (List Char)
  | [] => [[]]
  | c :: rest =>
    if c = ',' then [] :: splitComma rest
    else
      match splitComma rest with
      | s :: ss => (c :: s) :: ss
      | [] => [[c]]

/-- Joining a segment list with commas; used to state that `splitComma` is
a faithful (information-preserving) split. -/
def joinCommaL : List (List Char) → List Char
  | [] => []
  | [s] => s
  | s :: ss => s ++ ',' :: joinCommaL ss

/-- Embedding of `trim_newline` (`wordlist.rs:39-46`): pop a trailing
`'\n'`, and after that a trailing `'\r'` if present. -/
def trimNewlineL (l : List Char) : List Char :=
  match l.reverse with
  | '\n' :: rest =>
    match rest with
    | '\r' :: rest2 => rest2.reverse
    | _ => rest.reverse
  | _ => l

/-- Embedding of the chunking performed by `reader.read_until(b'\n', ..)`
inside `count_lines` and by `reader.read_line` inside `next`: cut the
contents into chunks, each ending with `'\n'` except possibly the final
unterminated one; an empty input yields no chunks.  `acc` holds the
characters of the current chunk in reverse. -/
def rawLinesAux : List Char → List Char → List (List Char)
  | [], acc => if acc = [] then [] else [acc.reverse]
  | c :: rest, acc =>
    if c = '\n' then (acc.reverse ++ ['\n']) :: rawLinesAux rest []
    else rawLinesAux rest (c :: acc)

/-- The successive raw lines (terminators included) of the input text. -/
def rawLines (l : List Char) : List (List Char) := rawLinesAux l []

/-- Embedding of `count_lines` (`wordlist.rs:20-37`): one `read_until`
chunk per loop iteration, counting the chunks whose last byte is `'\n'`. -/
def count_lines (l : List Char) : Nat :=
  ((rawLines l).filter (fun chunk => chunk.getLast? = some '\n')).length

/-- String-level wrapper for `contains("{SWAP}")`. -/
def containsSwap (s : String) : Bool := containsSwapL s.data

/-- String-level wrapper for `replace("{SWAP}", rep)`. -/
def replaceSwap (s rep : String) : String := String.mk (replaceSwapL rep.data s.data)

/-- String-level wrapper for `trim_newline`. -/
def trimNewline (s : String) : String := String.mk (trimNewlineL s.data)

/-- Embedding of the option parsing in `Wordlist::new` (`wordlist.rs:56-74`):
an absent option yields the empty list, a present one is split strictly on
commas. -/
def parseCsv : Option String → List String
  | none => []
  | some s => (splitComma s.data).map String.mk

/-- One `push_back` of the inner loop of a transformation stage
(`wordlist.rs:116-137`): the pushed string combines the stage string `s`
with the buffer entry at index `i`, re-read from the live buffer exactly
as Rust re-reads `self.word_perms[i]` on every push.  The default value of
`getD` is never reached while `i` is below the stage's snapshotted
length. -/
def pushPerm (mk : String → String → String) (i : Nat) (buf : List String)
    (s : String) : List String :=
  buf ++ [mk s (buf.getD i "")]

/-- The outer loop `for i in 0..n` of a transformation stage, with `fuel`
the number of remaining iterations (`fuel = n - i`); each iteration runs
the inner loop over the stage's strings and advances `i`. -/
def stageIter (mk : String → String → String) (strs : List String) :
    List String → Nat → Nat → List String
  | buf, _, 0 => buf
  | buf, i, fuel + 1 => stageIter mk strs (strs.foldl (pushPerm mk i) buf) (i + 1) fuel

/-- A whole transformation stage: the iteration bound is the buffer length
captured once, before the loop starts, exactly as `0..self.word_perms.len()`
evaluates its end point once. -/
def runStage (mk : String → String → String) (strs : List String)
    (buf : List String) : List String :=
  stageIter mk strs buf 0 buf.length

/-- The prepend stage (`wordlist.rs:116-121`): pushes `p ++ entry`. -/
def prependStage (p : List String) (buf : List String) : List String :=
  runStage (fun s w => s ++ w) p buf

/-- The append stage (`wordlist.rs:124-129`): pushes `entry ++ a`. -/
def appendStage (a : List String) (buf : List String) : List String :=
  runStage (fun s w => w ++ s) a buf

/-- The extension stage (`wordlist.rs:132-137`): pushes `entry ++ e`. -/
def extensionStage (e : List String) (buf : List String) : List String :=
  runStage (fun s w => w ++ s) e buf

/-- The swap/seed stage (`wordlist.rs:106-113`): a word containing the
placeholder seeds one replaced copy per swap value (and is itself not
enqueued); any other word seeds itself. -/
def seedStage (sw : List String) (base : String) : List String :=
  if containsSwap base then sw.map (fun s => replaceSwap base s) else [base]

/-- The full per-line expansion performed by `Wordlist::next` on a freshly
read line (`wordlist.rs:102-137`), starting from the empty buffer. -/
def expandLineStr (p a sw e : List String) (base : String) : List String :=
  extensionStage e (appendStage a (prependStage p (seedStage sw base)))

/-- Embedding of the `Wordlist` struct (`wordlist.rs:8-18`); the reader is
the pending read-event list described in the module docstring. -/
structure Wordlist where
  path : String
  base_count : Nat
  total_count : Nat
  reader : List (Option String)
  prepend : List String
  append : List String
  swap : List String
  extensions : List String
  word_perms : List String

/-- Embedding of `Wordlist::new` (`wordlist.rs:49-90`); `contents` is what
the file at `path` holds, read here both by `count_lines` and by the
line reader. -/
def Wordlist.new (path contents : String)
    (prepend append swap extensions : Option String) : Wordlist :=
  { path := path
    base_count := count_lines contents.data
    total_count := count_lines contents.data
      + count_lines contents.data * (parseCsv prepend).length
      + count_lines contents.data * (parseCsv append).length
      + count_lines contents.data * (parseCsv extensions).length
    reader := (rawLines contents.data).map (fun l => some (String.mk l))
    prepend := parseCsv prepend
    append := parseCsv append
    swap := parseCsv swap
    extensions := parseCsv extensions
    word_perms := [] }

/-- Embedding of `Wordlist::next` (`wordlist.rs:96-146`).  Returns the
yielded item, the updated state, and the diagnostic-stream output of the
call (the function body contains no `eprintln!`, so every branch reports
nothing). -/
def Wordlist.next (wl : Wordlist) : Option String × Wordlist × List String :=
  match wl.word_perms with
  | w :: ws => (some w, { wl with word_perms := ws }, [])
  | [] =>
    match wl.reader with
    | [] => (none, wl, [])
    | none :: rest => (none, { wl with reader := rest }, [])
    | some raw :: rest =>
      match expandLineStr wl.prepend wl.append wl.swap wl.extensions (trimNewline raw) with
      | [] => (none, { wl with reader := rest }, [])
      | w :: ws => (some w, { wl with reader := rest, word_perms := ws }, [])

/-- The stream of items yielded by iterating `next` until the first `none`,
i.e. exactly the words the `for word in wl` loop of `main.rs:70-74`
consumes. -/
def Wordlist.run (wl : Wordlist) : List String :=
  match hp : wl.word_perms with
  | w :: ws => w :: Wordlist.run { wl with word_perms := ws }
  | [] =>
    match hr : wl.reader with
    | [] => []
    | none :: _ => []
    | some raw :: rest =>
      match expandLineStr wl.prepend wl.append wl.swap wl.extensions (trimNewline raw) with
      | [] => []
      | w :: ws => w :: Wordlist.run { wl with reader := rest, word_perms := ws }
termination_by (wl.reader.length, wl.word_perms.length)
decreasing_by
  · simp [hp]
    exact Prod.Lex.right _ (Nat.lt_succ_self _)
  · simp [hr]
    exact Prod.Lex.left _ _ (Nat.lt_succ_self _)

/-- Reference recursion for the emitted stream on an error-free reader:
each line's expansion is emitted as a block; a line whose expansion is
empty ends the stream (its `pop_front` returns `None`). -/
def emitLines (p a sw e : List String) : List String → List String
  | [] => []
  | raw :: rest =>
    match expandLineStr p a sw e (trimNewline raw) with
    | [] => []
    | w :: ws => (w :: ws) ++ emitLines p a sw e rest

/-! ### Stage-loop lemmas -/

/-- The inner stage loop only appends, and every pushed string is built
from the entry at the fixed index `i` of the buffer as it stood when the
outer iteration reached `i` (pushes cannot disturb an index below the
original length). -/
theorem foldl_pushPerm (mk : String → String → String) (i : Nat) :
    ∀ (strs : List String) (buf : List String), i < buf.length →
      strs.foldl (pushPerm mk i) buf = buf ++ strs.map (fun s => mk s (buf.getD i "")) := by
  intro strs
  induction strs with
  | nil => intro buf _; simp
  | cons s ss ih =>
    intro buf hi
    have hi' : i < (buf ++ [mk s (buf.getD i "")]).length := by
      simp; omega
    have hstable : (buf ++ [mk s (buf.getD i "")]).getD i "" = buf.getD i "" :=
      List.getD_append _ _ _ _ hi
    simp only [List.foldl_cons, pushPerm]
    rw [ih _ hi', hstable]
    simp

/-- Unrolling the outer stage loop: starting at index `i` with `fuel`
iterations left, all inside the snapshotted region of the buffer, the loop
appends one inner-loop block per visited entry, in entry order. -/
theorem stageIter_eq (mk : String → String → String) (strs : List String) :
    ∀ (fuel i : Nat) (buf : List String), i + fuel ≤ buf.length →
      stageIter mk strs buf i fuel =
        buf ++ ((buf.drop i).take fuel).flatMap (fun w => strs.map (fun s => mk s w)) := by
  intro fuel
  induction fuel with
  | zero => intro i buf _; simp [stageIter]
  | succ fuel ih =>
    intro i buf hle
    have hi : i < buf.length := by omega
    have hblock := foldl_pushPerm mk i strs buf hi
    simp only [stageIter, hblock]
    rw [ih (i + 1) _ (by simp; omega)]
    rw [List.drop_append_of_le_length (by omega),
      List.take_append_of_le_length (by simp [List.length_drop]; omega)]
    rw [List.drop_eq_getElem_cons hi, List.take_succ_cons, List.getD_eq_getElem _ _ hi]
    simp

/-- A full stage over the current buffer: its result is the prior contents
followed by, for each prior entry in order and each stage string in order,
the combined string; entries appended during the stage are not themselves
transformed. -/
theorem runStage_eq (mk : String → String → String) (strs buf : List String) :
    runStage mk strs buf = buf ++ buf.flatMap (fun w => strs.map (fun s => mk s w)) := by
  have h := stageIter_eq mk strs buf.length 0 buf (by omega)
  simpa [runStage] using h

/-- An empty stage list makes the stage a no-op. -/
theorem runStage_nil (mk : String → String → String) (buf : List String) :
    runStage mk [] buf = buf := by
  simp [runStage_eq]

/-- Each stage multiplies the buffer length by `1 + |strs|`. -/
theorem runStage_length (mk : String → String → String) (strs buf : List String) :
    (runStage mk strs buf).length = buf.length * (1 + strs.length) := by
  rw [runStage_eq]
  simp only [List.length_append, List.length_flatMap, Function.comp_def, List.length_map,
    List.map_const', List.sum_replicate, smul_eq_mul]
  ring

/-! ### Iterator-run lemmas -/

/-- Draining the pending buffer: the run first yields every buffered
permutation, in FIFO order, before touching the reader. -/
theorem run_buffer : ∀ (ws : List String) (wl : Wordlist), wl.word_perms = ws →
    wl.run = ws ++ Wordlist.run { wl with word_perms := [] } := by
  intro ws
  induction ws with
  | nil =>
    intro wl h
    have hwl : { wl with word_perms := [] } = wl := by
      cases wl
      simp_all
    rw [hwl]
    simp
  | cons w ws ih =>
    intro wl h
    rw [Wordlist.run]
    split
    · rename_i w' ws' hp
      rw [h] at hp
      cases hp
      rw [ih { wl with word_perms := ws } rfl]
      simp
    · rename_i hp
      rw [h] at hp
      cases hp

/-- On an error-free reader the run is exactly the per-line block stream
`emitLines`: the buffer is fully drained (one line's whole expansion,
contiguously) before the next line is read, and a line whose expansion is
empty ends the stream. -/
theorem run_eq_emitLines : ∀ (lines : List String) (wl : Wordlist),
    wl.word_perms = [] → wl.reader = lines.map some →
    wl.run = emitLines wl.prepend wl.append wl.swap wl.extensions lines := by
  intro lines
  induction lines with
  | nil =>
    intro wl hp hr
    rw [Wordlist.run]
    split
    · rename_i w ws h
      rw [hp] at h
      cases h
    · split
      · simp [emitLines]
      · rename_i rest h
        rw [hr] at h
        cases h
      · rename_i raw rest h
        rw [hr] at h
        cases h
  | cons raw rest ih =>
    intro wl hp hr
    rw [Wordlist.run]
    split
    · rename_i w ws h
      rw [hp] at h
      cases h
    · split
      · rename_i h
        rw [hr] at h
        cases h
      · rename_i rest' h
        rw [hr] at h
        cases h
      · rename_i raw' rest' h
        rw [hr] at h
        injection h with h1 h2
        injection h1 with h1
        subst h1
        subst h2
        split
        · rename_i hE
          simp [emitLines, hE]
        · rename_i w ws hE
          rw [run_buffer ws { wl with reader := rest.map some, word_perms := ws } rfl]
          rw [ih { wl with reader := rest.map some, word_perms := [] } rfl rfl]
          simp [emitLines, hE]

/-- The words the `for` loop of `main.rs` consumes from a freshly
constructed `Wordlist` are the block stream of the input's raw lines. -/
theorem run_new (path contents : String) (p a sw e : Option String) :
    (Wordlist.new path contents p a sw e).run =
      emitLines (parseCsv p) (parseCsv a) (parseCsv sw) (parseCsv e)
        ((rawLines contents.data).map String.mk) := by
  have h := run_eq_emitLines ((rawLines contents.data).map String.mk)
    (Wordlist.new path contents p a sw e) rfl
    (by simp [Wordlist.new, List.map_map, Function.comp_def])
  simpa [Wordlist.new] using h

/-! ### Comma-splitting lemmas -/

/-- The split always yields at least one segment. -/
theorem splitComma_ne_nil : ∀ l : List Char, splitComma l ≠ [] := by
  intro l
  induction l with
  | nil => simp [splitComma]
  | cons c rest ih =>
    by_cases hc : c = ','
    · simp [splitComma, hc]
    · simp only [splitComma, if_neg hc]
      cases hS : splitComma rest with
      | nil => simp
      | cons s ss => simp

/-- The split is faithful: re-joining the segments with commas restores
the input, so no characters are trimmed, dropped or reordered. -/
theorem joinCommaL_splitComma : ∀ l : List Char, joinCommaL (splitComma l) = l := by
  intro l
  induction l with
  | nil => rfl
  | cons c rest ih =>
    by_cases hc : c = ','
    · subst hc
      simp only [splitComma, if_pos rfl]
      cases hS : splitComma rest with
      | nil => exact absurd hS (splitComma_ne_nil rest)
      | cons s ss =>
        rw [hS] at ih
        calc joinCommaL ([] :: s :: ss) = ',' :: joinCommaL (s :: ss) := rfl
          _ = ',' :: rest := by rw [ih]
    · simp only [splitComma, if_neg hc]
      cases hS : splitComma rest with
      | nil => exact absurd hS (splitComma_ne_nil rest)
      | cons s ss =>
        rw [hS] at ih
        cases ss with
        | nil => simpa [joinCommaL] using congrArg (c :: ·) ih
        | cons t ts =>
          calc joinCommaL ((c :: s) :: t :: ts)
              = c :: joinCommaL (s :: t :: ts) := by simp [joinCommaL]
            _ = c :: rest := by rw [ih]

/-- No segment produced by the split contains a comma. -/
theorem splitComma_no_comma : ∀ (l : List Char) (seg : List Char),
    seg ∈ splitComma l → ',' ∉ seg := by
  intro l
  induction l with
  | nil =>
    intro seg hmem
    simp [splitComma] at hmem
    simp [hmem]
  | cons c rest ih =>
    intro seg hmem
    by_cases hc : c = ','
    · rw [splitComma, if_pos hc] at hmem
      rcases List.mem_cons.mp hmem with h | h
      · simp [h]
      · exact ih seg h
    · rw [splitComma, if_neg hc] at hmem
      cases hS : splitComma rest with
      | nil => exact absurd hS (splitComma_ne_nil rest)
      | cons s ss =>
        rw [hS] at hmem
        rcases List.mem_cons.mp hmem with h | h
        · subst h
          intro hin
          rcases List.mem_cons.mp hin with h' | h'
          · exact hc h'.symm
          · exact ih s (hS ▸ List.mem_cons_self s ss) h'
        · exact ih seg (hS ▸ List.mem_cons_of_mem s h)

/-! ### Line-counting lemmas -/

/-- While the pending chunk holds no newline, the number of
newline-terminated chunks produced by the chunker equals the number of
newline characters still to be read. -/
theorem rawLinesAux_count : ∀ (l acc : List Char), (∀ c ∈ acc, c ≠ '\n') →
    ((rawLinesAux l acc).filter (fun chunk => chunk.getLast? = some '\n')).length =
      l.countP (fun c => c == '\n') := by
  intro l
  induction l with
  | nil =>
    intro acc hacc
    by_cases ha : acc = []
    · simp [rawLinesAux, ha]
    · rw [rawLinesAux, if_neg ha]
      cases acc with
      | nil => exact absurd rfl ha
      | cons a as =>
        have : (a :: as).reverse.getLast? = some a := by
          rw [List.getLast?_reverse]
          rfl
        have hne : a ≠ '\n' := hacc a (List.mem_cons_self a as)
        simp [List.filter, this, hne]
  | cons c rest ih =>
    intro acc hacc
    by_cases hc : c = '\n'
    · subst hc
      rw [rawLinesAux, if_pos rfl]
      have hlast : (acc.reverse ++ ['\n']).getLast? = some '\n' := by
        simp
      rw [List.filter]
      simp only [hlast, decide_True, List.length_cons]
      rw [ih [] (by simp)]
      simp [List.countP_cons]
    · rw [rawLinesAux, if_neg hc]
      have hinv : ∀ x ∈ c :: acc, x ≠ '\n' := by
        intro x hx
        rcases List.mem_cons.mp hx with h | h
        · exact h ▸ hc
        · exact hacc x h
      rw [ih (c :: acc) hinv, List.countP_cons]
      simp [hc]

/-- The function `count_lines` counts exactly the newline characters of the input,
i.e. the number of newline-terminated lines. -/
theorem count_lines_eq_countP (l : List Char) :
    count_lines l = l.countP (fun c => c == '\n') :=
  rawLinesAux_count l [] (by simp)

/-! ### Per-line expansion lemmas -/

/-- The seed entries produced by the swap stage survive at the front of
the fully expanded buffer: the three later stages only append. -/
theorem expandLineStr_seed_isPrefixOf (p a sw e : List String) (w : String) :
    ∃ rest, expandLineStr p a sw e w = seedStage sw w ++ rest := by
  have h1 : seedStage sw w <+: prependStage p (seedStage sw w) :=
    ⟨_, (runStage_eq _ _ _).symm⟩
  have h2 : prependStage p (seedStage sw w) <+:
      appendStage a (prependStage p (seedStage sw w)) :=
    ⟨_, (runStage_eq _ _ _).symm⟩
  have h3 : appendStage a (prependStage p (seedStage sw w)) <+:
      extensionStage e (appendStage a (prependStage p (seedStage sw w))) :=
    ⟨_, (runStage_eq _ _ _).symm⟩
  obtain ⟨rest, hrest⟩ := (h1.trans h2).trans h3
  exact ⟨rest, hrest.symm⟩

/-- The size of one line's expansion: seeds (one per swap value if the
placeholder occurs, else the word itself) times the three stage
multipliers. -/
theorem expandLineStr_length (p a sw e : List String) (w : String) :
    (expandLineStr p a sw e w).length =
      (if containsSwap w then sw.length else 1) *
        ((1 + p.length) * ((1 + a.length) * (1 + e.length))) := by
  rw [expandLineStr, extensionStage, appendStage, prependStage,
    runStage_length, runStage_length, runStage_length]
  by_cases h : containsSwap w
  · simp [seedStage, h]
    ring
  · simp [seedStage, h]
    ring

/-- With no transformations configured, a placeholder-free word expands to
itself alone. -/
theorem expandLineStr_id (sw : List String) (w : String)
    (h : containsSwap w = false) :
    expandLineStr [] [] sw [] w = [w] := by
  rw [expandLineStr, extensionStage, appendStage, prependStage,
    runStage_nil, runStage_nil, runStage_nil, seedStage, h]
  rfl

/-! ### Emitted-stream lemmas -/

/-- The emitted stream is a concatenation of whole per-line expansion
blocks taken from the front of the line list. -/
theorem emitLines_join (p a sw e : List String) :
    ∀ lines : List String, ∃ k, emitLines p a sw e lines =
      ((lines.take k).map (fun raw => expandLineStr p a sw e (trimNewline raw))).flatten := by
  intro lines
  induction lines with
  | nil => exact ⟨0, rfl⟩
  | cons raw rest ih =>
    cases hE : expandLineStr p a sw e (trimNewline raw) with
    | nil =>
      refine ⟨0, ?_⟩
      simp [emitLines, hE]
    | cons w ws =>
      obtain ⟨k, hk⟩ := ih
      refine ⟨k + 1, ?_⟩
      simp only [emitLines, hE, List.take_succ_cons, List.map_cons, List.flatten_cons]
      rw [hk]

/-- With every transformation list empty and no line containing the
placeholder, each line is emitted exactly once, stripped. -/
theorem emitLines_id : ∀ lines : List String,
    (∀ raw ∈ lines, containsSwap (trimNewline raw) = false) →
    emitLines [] [] [] [] lines = lines.map trimNewline := by
  intro lines
  induction lines with
  | nil => intro _; rfl
  | cons raw rest ih =>
    intro h
    have hraw := h raw (List.mem_cons_self raw rest)
    have hE := expandLineStr_id [] (trimNewline raw) hraw
    simp only [emitLines, hE]
    rw [ih (fun x hx => h x (List.mem_cons_of_mem raw hx))]
    rfl

/-- Joining parsed segments back with commas, at the string level. -/
def joinCommaStr (segs : List String) : String :=
  String.mk (joinCommaL (segs.map String.data))

/-! ### Claim theorems -/

/-- Claim C1. The claim says a `{SWAP}` line with an empty swap list
contributes zero permutations and the engine then continues with the next
line.  In the code, `next` falls through to `pop_front()` on the empty
buffer and returns `None`, which ends the consuming iteration: on the
two-line input `{SWAP}s`, `next` (with no swap values) the emitted stream
is empty, even though line 2 alone would have contributed `["next"]`. -/
theorem C1_swap_empty_halts_stream :
    (Wordlist.new "wl.txt" "{SWAP}s\nnext\n" none none none none).run = [] ∧
    expandLineStr [] [] [] [] "next" = ["next"] := by
  refine ⟨?_, by decide⟩
  rw [run_new]
  decide

/-- Claim C2. Each of the prepend, append and extension stages iterates only
over the buffer entries present when the stage begins (the loop bound is
the length snapshotted before the loop): the buffer afterwards is its
prior contents followed by, for each prior entry in order and each stage
string in order, the corresponding concatenation; entries appended during
a stage are never re-transformed within that stage. -/
theorem C2_stage_snapshot (p a e buf : List String) :
    prependStage p buf = buf ++ buf.flatMap (fun w => p.map (fun s => s ++ w)) ∧
    appendStage a buf = buf ++ buf.flatMap (fun w => a.map (fun s => w ++ s)) ∧
    extensionStage e buf = buf ++ buf.flatMap (fun w => e.map (fun s => w ++ s)) :=
  ⟨runStage_eq _ p buf, runStage_eq _ a buf, runStage_eq _ e buf⟩

/-- Claim C3, counterexample. With prepend/append `test1,test2,test3`, swap
`dev,prod` and extensions `.txt,.bak,.file`, the base line `test` does
not expand to 63 entries: the staged algorithm produces 64
(`(1+3)·(1+3)·(1+3)`), as the repository's own `test_all` fixture
lists. -/
theorem C3_not_63 :
    (expandLineStr ["test1", "test2", "test3"] ["test1", "test2", "test3"]
      ["dev", "prod"] [".txt", ".bak", ".file"] "test").length ≠ 63 := by
  decide

/-- Claim C3, amended. The base line `test` expands to exactly these 64
entries, element-for-element and in order — the same 64 strings, in the
same order, as the per-`test` block of the `test_all` reference fixture
(`wordlist.rs:306-369`). -/
theorem C3_expansion_of_test :
    expandLineStr ["test1", "test2", "test3"] ["test1", "test2", "test3"]
      ["dev", "prod"] [".txt", ".bak", ".file"] "test" =
    ["test", "test1test", "test2test", "test3test", "testtest1", "testtest2",
     "testtest3", "test1testtest1", "test1testtest2", "test1testtest3",
     "test2testtest1", "test2testtest2", "test2testtest3", "test3testtest1",
     "test3testtest2", "test3testtest3", "test.txt", "test.bak", "test.file",
     "test1test.txt", "test1test.bak", "test1test.file", "test2test.txt",
     "test2test.bak", "test2test.file", "test3test.txt", "test3test.bak",
     "test3test.file", "testtest1.txt", "testtest1.bak", "testtest1.file",
     "testtest2.txt", "testtest2.bak", "testtest2.file", "testtest3.txt",
     "testtest3.bak", "testtest3.file", "test1testtest1.txt",
     "test1testtest1.bak", "test1testtest1.file", "test1testtest2.txt",
     "test1testtest2.bak", "test1testtest2.file", "test1testtest3.txt",
     "test1testtest3.bak", "test1testtest3.file", "test2testtest1.txt",
     "test2testtest1.bak", "test2testtest1.file", "test2testtest2.txt",
     "test2testtest2.bak", "test2testtest2.file", "test2testtest3.txt",
     "test2testtest3.bak", "test2testtest3.file", "test3testtest1.txt",
     "test3testtest1.bak", "test3testtest1.file", "test3testtest2.txt",
     "test3testtest2.bak", "test3testtest2.file", "test3testtest3.txt",
     "test3testtest3.bak", "test3testtest3.file"] := by
  decide

/-- Claim C4. For every stripped base word: if it contains `{SWAP}` the word
itself is not enqueued and the seed entries are, in swap-list order, the
copies with every occurrence of the placeholder replaced; otherwise the
stripped word itself is the single seed entry.  The seeds stand at the
front of the fully expanded buffer, before everything the later stages
append. -/
theorem C4_seed_stage (p a sw e : List String) (w : String) :
    ∃ rest, expandLineStr p a sw e w =
      (if containsSwap w then sw.map (fun s => replaceSwap w s) else [w]) ++ rest := by
  simpa [seedStage] using expandLineStr_seed_isPrefixOf p a sw e w

/-- Claim C5. For every input and configuration the emitted stream is a
concatenation of whole per-line expansion blocks, in line order, taken
from the front of the input: all permutations of one line are emitted
contiguously, and no permutation of a later line ever precedes one of an
earlier line. -/
theorem C5_blocks_in_line_order (path contents : String) (p a sw e : Option String) :
    ∃ k, (Wordlist.new path contents p a sw e).run =
      ((((rawLines contents.data).map String.mk).take k).map
        (fun raw => expandLineStr (parseCsv p) (parseCsv a) (parseCsv sw) (parseCsv e)
          (trimNewline raw))).flatten := by
  rw [run_new]
  exact emitLines_join _ _ _ _ _

/-- Claim C6, counterexample. The claim says a mid-stream read error is
reported to the diagnostic stream.  In the code the `Err(_)` arm of
`next` is a bare `return None`: on a state whose next read event is an
error, `next` yields `none` and writes nothing to the diagnostic
stream. -/
theorem C6_error_not_reported :
    ((⟨"wl.txt", 0, 0, [none], [], [], [], [], []⟩ : Wordlist).next.2.2
      = ([] : List String)) ∧
    (⟨"wl.txt", 0, 0, [none], [], [], [], [], []⟩ : Wordlist).next.1 = none := by
  constructor
  · rfl
  · rfl

/-- Claim C6, amended. When an I/O failure occurs while reading a line
mid-stream, expansion terminates — `next` yields `none` and the consuming
loop stops, so no further permutations are emitted — but nothing is
reported to the diagnostic stream: the error is silently swallowed. -/
theorem C6_read_error_silent (wl : Wordlist) (rest : List (Option String))
    (hp : wl.word_perms = []) (hr : wl.reader = none :: rest) :
    wl.next = (none, { wl with reader := rest }, []) ∧ wl.run = [] := by
  constructor
  · simp [Wordlist.next, hp, hr]
  · rw [Wordlist.run]
    split
    · rename_i w ws h
      rw [hp] at h
      cases h
    · split <;> simp_all

/-- Witness for C6: a concrete state whose next read event is an error. -/
theorem C6_read_error_silent_witness :
    (⟨"wl.txt", 0, 0, [none, some "x\n"], [], [], [], [], []⟩ : Wordlist).next =
      (none, ⟨"wl.txt", 0, 0, [some "x\n"], [], [], [], [], []⟩, []) ∧
    (⟨"wl.txt", 0, 0, [none, some "x\n"], [], [], [], [], []⟩ : Wordlist).run = [] :=
  C6_read_error_silent _ [some "x\n"] rfl rfl

/-- Claim C7. The claim says every placeholder-free line yields
`(1+p)·(1+a)·(1+e)` emitted permutations.  On the input `{SWAP}a`,
`test` with no transformation options, the line `test` (no placeholder,
`p = a = e = 0`) should therefore emit exactly one permutation, but the
stream ends at the dropped first line and emits nothing — even though
the expansion of `test` itself has exactly the predicted size. -/
theorem C7_count_lost_after_drop :
    (Wordlist.new "wl.txt" "{SWAP}a\ntest\n" none none none none).run = [] ∧
    (expandLineStr [] [] [] [] "test").length = 1 := by
  refine ⟨?_, by decide⟩
  rw [run_new]
  decide

/-- Claim C8. An absent option parses to the empty list; a present one is
split strictly on commas: the four `Wordlist` lists are exactly the
parses of their options, re-joining the parsed segments with commas
restores the original string (nothing trimmed, dropped, deduplicated or
reordered), no segment contains a comma, and adjacent, leading and
trailing commas yield empty segments. -/
theorem C8_csv_split :
    parseCsv none = [] ∧
    (∀ path contents : String, ∀ p a sw e : Option String,
      (Wordlist.new path contents p a sw e).prepend = parseCsv p ∧
      (Wordlist.new path contents p a sw e).append = parseCsv a ∧
      (Wordlist.new path contents p a sw e).swap = parseCsv sw ∧
      (Wordlist.new path contents p a sw e).extensions = parseCsv e) ∧
    (∀ s : String, joinCommaStr (parseCsv (some s)) = s ∧
      ∀ seg ∈ parseCsv (some s), ',' ∉ seg.data) ∧
    parseCsv (some ",a,,b,") = ["", "a", "", "b", ""] ∧
    parseCsv (some "") = [""] := by
  refine ⟨rfl, fun _ _ _ _ _ _ => ⟨rfl, rfl, rfl, rfl⟩, ?_, by decide, rfl⟩
  intro s
  constructor
  · show String.mk (joinCommaL (((splitComma s.data).map String.mk).map String.data)) = s
    rw [List.map_map]
    have : (String.data ∘ String.mk) = id := rfl
    rw [this, List.map_id, joinCommaL_splitComma]
  · intro seg hseg
    obtain ⟨l, hl, hmk⟩ := List.mem_map.mp hseg
    have : seg.data = l := by rw [← hmk]
    rw [this]
    exact splitComma_no_comma s.data l hl

/-- Witness for C8: the split of a string with leading, adjacent and
trailing commas re-joins to itself, and its segment `a` contains no
comma. -/
theorem C8_csv_split_witness :
    joinCommaStr (parseCsv (some ",a,,b,")) = ",a,,b," ∧
    ',' ∉ ("a" : String).data :=
  ⟨(C8_csv_split.2.2.1 ",a,,b,").1,
    (C8_csv_split.2.2.1 ",a,,b,").2 "a" (by decide)⟩

/-- Claim C9. The claim says every input line without `{SWAP}` is emitted
exactly once — as its stripped self — when all four transformation lists
are empty.  The code falsifies it on the input `{SWAP}x`, `word` with no
options: the stream ends at the dropped `{SWAP}` line (its empty buffer
makes `pop_front()` return `None`), so the placeholder-free line `word`
emits zero permutations, even though its own expansion is exactly the
single stripped line the claim demands. -/
theorem C9_identity_lost_after_drop :
    (Wordlist.new "wl.txt" "{SWAP}x\nword\n" none none none none).run = [] ∧
    expandLineStr [] [] [] [] "word" = ["word"] := by
  refine ⟨?_, by decide⟩
  rw [run_new]
  decide

/-- Claim C10. At construction, `total_count` is
`base_count * (1 + |prepend| + |append| + |extensions|)`, `base_count`
is the number of newline characters (newline-terminated lines) of the
input, and the swap option has no effect on `total_count`. -/
theorem C10_total_count (path contents : String) (p a sw e : Option String) :
    (Wordlist.new path contents p a sw e).total_count =
      (Wordlist.new path contents p a sw e).base_count *
        (1 + (parseCsv p).length + (parseCsv a).length + (parseCsv e).length) ∧
    (Wordlist.new path contents p a sw e).base_count =
      contents.data.countP (fun c => c == '\n') ∧
    ∀ sw' : Option String,
      (Wordlist.new path contents p a sw e).total_count =
        (Wordlist.new path contents p a sw' e).total_count := by
  refine ⟨?_, ?_, fun sw' => rfl⟩
  · show count_lines contents.data
        + count_lines contents.data * (parseCsv p).length
        + count_lines contents.data * (parseCsv a).length
        + count_lines contents.data * (parseCsv e).length =
      count_lines contents.data *
        (1 + (parseCsv p).length + (parseCsv a).length + (parseCsv e).length)
    ring
  · exact count_lines_eq_countP contents.data

end Wlinflate
